import Mathlib

/-!
# Verification of `sqlalchemy_storages.s3.S3Storage`

A shallow embedding of `src/sqlalchemy_storages/s3.py` (class `S3Storage`):
name normalization (`get_name`), collision resolution
(`generate_new_filename`), the existence check (`_check_object_exists`),
constructor validation (`__init__`) and `write`.

Python strings are modelled as `List Char` internally, wrapped in `String`
at the interface.  `pathlib.PurePosixPath` parsing is embedded faithfully
(splitting on `/`, dropping empty and `"."` components, the `/` vs `//`
root rule, `name` / `stem` / `suffix` / `with_name` / `str`).  Fallible
Python code (raising `ValueError` or propagating a backend exception)
returns `Option` / explicit error constructors.

`sqlalchemy_storages.utils.secure_filename` is not part of the sources;
it is modelled from the specification (see its doc comment).
-/

/-- Modelled from the spec: `sqlalchemy_storages.utils.secure_filename` is
imported by `s3.py` but `utils.py` is not among the sources.  Per the spec
(§4.1 NameNormalizer), the sanitizer, applied to the leaf filename only,
must "strip or transliterate characters unsafe for storage keys and URLs
(non-ASCII, path separators, control characters, leading dots/dashes that
could be misinterpreted), collapse repeated separators".  This predicate
gives the allowed character set: ASCII alphanumerics plus `.`, `_`, `-`. -/
def allowedChar (c : Char) : Bool :=
  c.isAlphanum || c = '.' || c = '_' || c = '-'

/-- Collapse every run of repeated `_` separators into a single `_`. -/
def collapseU : List Char → List Char
  | [] => []
  | [c] => [c]
  | c :: d :: rest =>
    if c = '_' && d = '_' then collapseU (d :: rest)
    else c :: collapseU (d :: rest)

/-- No two consecutive `_` characters (the normal form established by
`collapseU`). -/
def noUU : List Char → Bool
  | a :: b :: t => (!(a = '_' && b = '_')) && noUU (b :: t)
  | _ => true

/-- Modelled from the spec: the sanitization pipeline of
`secure_filename` on the character list of a leaf filename — transliterate
spaces to `_`, strip characters outside the allowed set, collapse repeated
`_` separators, and strip leading dots/dashes.  An empty result is left to
the caller (`with_name` rejects it). -/
def secureFilenameL (l : List Char) : List Char :=
  (collapseU ((l.map (fun c => if c = ' ' then '_' else c)).filter
    allowedChar)).dropWhile (fun c => c = '.' || c = '-')

/-- Modelled from the spec: `secure_filename` on strings. -/
def secure_filename (s : String) : String :=
  String.mk (secureFilenameL s.data)

/-! ## `pathlib.PurePosixPath` embedding -/

/-- `str.split("/")` on character lists: split at every `/`. -/
def splitOnSlash : List Char → List (List Char)
  | [] => [[]]
  | c :: cs =>
    match splitOnSlash cs with
    | [] => [[c]]
    | h :: t => if c = '/' then [] :: h :: t else (c :: h) :: t

/-- Joining path components with a single `/` separator
(`"/".join(tail)` in `PurePosixPath.__str__`). -/
def joinSlash : List (List Char) → List Char
  | [] => []
  | [p] => p
  | p :: q :: rest => p ++ '/' :: joinSlash (q :: rest)

/-- The root of a POSIX path string: `/` for one or three-plus leading
slashes, `//` for exactly two (the `PurePosixPath` parsing rule). -/
def pathRootL (l : List Char) : List Char :=
  match l with
  | [] => []
  | a :: t =>
    if a = '/' then
      match t with
      | [] => ['/']
      | b :: u =>
        if b = '/' then
          match u with
          | [] => ['/', '/']
          | c :: _ => if c = '/' then ['/'] else ['/', '/']
        else ['/']
    else []

/-- The parsed components of a `PurePosixPath`: split on `/`, dropping
empty components and `"."` components. -/
def pathPartsL (l : List Char) : List (List Char) :=
  (splitOnSlash l).filter (fun p => p ≠ [] && p ≠ ['.'])

/-- `PurePosixPath(...).name`: the final component, or empty. -/
def pathNameL (l : List Char) : List Char :=
  (pathPartsL l).getLast?.getD []

/-- `PurePosixPath.__str__` from root and components: `"."` when both are
empty, otherwise root followed by the `/`-joined components. -/
def pathStrL (root : List Char) (parts : List (List Char)) : List Char :=
  if root = [] && parts = [] then ['.'] else root ++ joinSlash parts

/-- The index of the last `.` in a character list, if any
(Python `str.rfind(".")`, with `none` for `-1`). -/
def rfindDot : List Char → Option Nat
  | [] => none
  | c :: cs =>
    match rfindDot cs with
    | some i => some (i + 1)
    | none => if c = '.' then some 0 else none

/-- `PurePosixPath(...).suffix`: `name[i:]` when the last dot of the final
component sits strictly inside it (`0 < i < len(name) - 1`), else empty. -/
def pathSuffixL (l : List Char) : List Char :=
  let n := pathNameL l
  match rfindDot n with
  | some i => if 0 < i ∧ i < n.length - 1 then n.drop i else []
  | none => []

/-- `PurePosixPath(...).stem`: the final component without its suffix. -/
def pathStemL (l : List Char) : List Char :=
  let n := pathNameL l
  match rfindDot n with
  | some i => if 0 < i ∧ i < n.length - 1 then n.take i else n
  | none => n

/-! ## `S3Storage` -/

namespace S3Storage

/-- `S3Storage.get_name` (s3.py lines 65–71):
`filename = secure_filename(Path(name).name)` followed by
`str(Path(name).with_name(filename))`.  `with_name` raises `ValueError`
when the path has no final component, or when the replacement is empty,
contains `/`, or equals `"."`; these cases return `none`. -/
def get_name (name : String) : Option String :=
  let l := name.data
  let leaf := pathNameL l
  if leaf = [] then none
  else
    let fn := secureFilenameL leaf
    if fn = [] || fn.contains '/' || fn = ['.'] then none
    else some (String.mk (pathStrL (pathRootL l) ((pathPartsL l).dropLast ++ [fn])))

end S3Storage

/-- The ASCII character of a decimal digit. -/
def digitChar (d : Nat) : Char := Char.ofNat (48 + d)

/-- Decimal digit expansion with explicit fuel (structural, so that the
kernel can evaluate it); `fuel ≥ 1 + number of digits` suffices. -/
def natReprAux : Nat → Nat → List Char
  | 0, _ => []
  | fuel + 1, n =>
    if n < 10 then [digitChar n]
    else natReprAux fuel (n / 10) ++ [digitChar (n % 10)]

/-- Decimal representation of a natural number, as produced by Python's
`f"{counter}"` formatting. -/
def natRepr (n : Nat) : List Char := natReprAux (n + 1) n

namespace S3Storage

/-- Outcome of one `head_object` call on the backend, as observed by
`_check_object_exists`: success, a `botocore ClientError` carrying an error
code, or any other exception (e.g. a connection error). -/
inductive HeadOutcome where
  | ok
  | clientError (code : String)
  | exn
deriving DecidableEq

/-- `S3Storage._check_object_exists` (s3.py lines 143–150): call
`head_object`; on a `ClientError` whose code is `"404"` return `False`;
on success, and on a `ClientError` with any other code, fall through to
`return True`; any other exception propagates (`Except.error`). -/
def check_object_exists (hd : String → HeadOutcome) (key : String) :
    Except Unit Bool :=
  match hd key with
  | .ok => .ok true
  | .clientError code => if code = "404" then .ok false else .ok true
  | .exn => .error ()

/-- Result of `generate_new_filename`: a returned string, an uncaught
exception, or fuel exhaustion (the loop still running). -/
inductive GenOut where
  | ret (s : String)
  | exn
  | spin
deriving DecidableEq

/-- The candidate built by the loop body of `generate_new_filename`:
`f"{stem}_{counter}{suffix}"` where `stem` and `suffix` come from the
original `filename`. -/
def cand (name : String) (counter : Nat) : String :=
  String.mk (pathStemL name.data ++ '_' :: natRepr counter ++ pathSuffixL name.data)

/-- The `while self._check_object_exists(key)` loop of
`generate_new_filename`, with explicit fuel.  The second result component
counts the existence checks performed.  `ex` is the existence check
(`Except.error` = an exception it lets propagate). -/
def genAux (ex : String → Except Unit Bool) (name : String) :
    Nat → Nat → String → String → GenOut × Nat
  | 0, _, _, _ => (.spin, 0)
  | fuel + 1, counter, filename, key =>
    match ex key with
    | .error _ => (.exn, 1)
    | .ok false => (.ret filename, 1)
    | .ok true =>
      let c := counter + 1
      let filename' := cand name c
      match get_name filename' with
      | none => (.exn, 1)
      | some key' =>
        let r := genAux ex name fuel c filename' key'
        (r.1, r.2 + 1)

/-- `S3Storage.generate_new_filename` (s3.py lines 130–141):
`key = get_name(filename)`, `stem`/`suffix` from `Path(filename)`,
`counter = 0`, then loop while the object exists, rebuilding
`filename = f"{stem}_{counter}{suffix}"` and its key each iteration. -/
def generate_new_filename (ex : String → Except Unit Bool) (fuel : Nat)
    (filename : String) : GenOut × Nat :=
  match get_name filename with
  | none => (.exn, 0)
  | some key => genAux ex filename fuel 0 filename key

/-- `generate_new_filename` against a pure boolean existence check
(an `exists` capability that never fails). -/
def genNewFilenameB (b : String → Bool) (fuel : Nat) (filename : String) :
    GenOut × Nat :=
  generate_new_filename (fun k => .ok (b k)) fuel filename

/-- `generate_new_filename` wired, as in the source, to
`_check_object_exists` over a `head_object` behaviour. -/
def genNewFilenameH (hd : String → HeadOutcome) (fuel : Nat)
    (filename : String) : GenOut × Nat :=
  generate_new_filename (check_object_exists hd) fuel filename

/-- Configuration of `S3Storage`: the class attributes read by
`__init__` plus whether the optional `boto3` import succeeded. -/
structure Config where
  boto3Installed : Bool
  AWS_ACCESS_KEY_ID : String
  AWS_SECRET_ACCESS_KEY : String
  AWS_S3_BUCKET_NAME : String
  AWS_S3_ENDPOINT_URL : String
  AWS_S3_USE_SSL : Bool

/-- The state a successfully constructed `S3Storage` instance holds. -/
structure Instance where
  http_scheme : String
  url : String
deriving DecidableEq

/-- `S3Storage.__init__` (s3.py lines 49–63): assert `boto3` is installed
and that the endpoint does not start with `"http"`; then build the scheme
and endpoint URL (a failed assertion leaves no instance: `none`). -/
def init (c : Config) : Option Instance :=
  if c.boto3Installed = false then none
  else if "http".data.isPrefixOf c.AWS_S3_ENDPOINT_URL.data then none
  else
    let scheme := if c.AWS_S3_USE_SSL then "https" else "http"
    some ⟨scheme, scheme ++ "://" ++ c.AWS_S3_ENDPOINT_URL⟩

/-- The object record `upload_fileobj` stores: content bytes, content
type, and ACL. -/
structure ObjRec where
  data : List Nat
  contentType : String
  acl : String

/-- An open binary file: its bytes and the current position
(`write` rewinds with `seek(0, 0)` before uploading). -/
structure BinFile where
  data : List Nat
  pos : Nat

/-- `S3Storage.write` (s3.py lines 108–121): seek to 0, compute
`key = get_name(name)`, infer the content type from the key (`guess`
models `mimetypes.guess_type`, falling back to
`default_content_type = "application/octet-stream"`), upload under `key`
overwriting whatever is there, and return `key`.  The bucket's state is a
map from keys to object records. -/
def write (guess : String → Option String) (acl : String)
    (σ : String → Option ObjRec) (file : BinFile) (name : String) :
    Option ((String → Option ObjRec) × String) :=
  match get_name name with
  | none => none
  | some key =>
    let ct := (guess key).getD "application/octet-stream"
    some (fun k => if k = key then some ⟨file.data, ct, acl⟩ else σ k, key)

end S3Storage

/-! ## Lemmas about the sanitizer -/

theorem uuCond {b d : Char} (h : ¬(b = '_' ∧ d = '_')) :
    ¬((b = '_' && d = '_') = true) := by
  simp only [Bool.and_eq_true, decide_eq_true_eq]
  exact h

theorem uuCond2 {b d : Char} (h : (!(b = '_' && d = '_')) = true) :
    ¬((b = '_' && d = '_') = true) := by
  simp only [Bool.not_eq_true'] at h
  simp [h]

theorem noUU_tail {a : Char} {t : List Char} (h : noUU (a :: t) = true) : noUU t = true := by
  match t with
  | [] => rfl
  | b :: u => exact (Bool.and_eq_true_iff.mp h).2

theorem noUU_pair {a b : Char} {t : List Char} (h : noUU (a :: b :: t) = true) :
    ¬((a = '_' && b = '_') = true) :=
  uuCond2 (Bool.and_eq_true_iff.mp h).1

theorem collapseU_cons (b : Char) (t : List Char) :
    ∃ t', collapseU (b :: t) = b :: t' := by
  match t with
  | [] => exact ⟨[], rfl⟩
  | d :: rest =>
    by_cases h : b = '_' ∧ d = '_'
    · obtain ⟨hb, hd⟩ := h
      subst hb; subst hd
      obtain ⟨t', ht'⟩ := collapseU_cons '_' rest
      exact ⟨t', by rw [collapseU, if_pos (by decide)]; exact ht'⟩
    · exact ⟨collapseU (d :: rest), by rw [collapseU, if_neg (uuCond h)]⟩

theorem mem_collapseU {c : Char} : ∀ {l : List Char}, c ∈ collapseU l → c ∈ l
  | [], h => h
  | [_], h => h
  | a :: b :: t, h => by
    by_cases hab : a = '_' ∧ b = '_'
    · obtain ⟨ha, hb⟩ := hab
      subst ha; subst hb
      rw [collapseU, if_pos (by decide)] at h
      exact List.mem_cons_of_mem _ (mem_collapseU h)
    · rw [collapseU, if_neg (uuCond hab)] at h
      rcases List.mem_cons.mp h with h | h
      · exact h ▸ List.mem_cons_self a (b :: t)
      · exact List.mem_cons_of_mem a (mem_collapseU h)

theorem noUU_collapseU : ∀ l : List Char, noUU (collapseU l) = true
  | [] => rfl
  | [_] => rfl
  | a :: b :: t => by
    by_cases hab : a = '_' ∧ b = '_'
    · obtain ⟨ha, hb⟩ := hab
      subst ha; subst hb
      rw [collapseU, if_pos (by decide)]
      exact noUU_collapseU ('_' :: t)
    · rw [collapseU, if_neg (uuCond hab)]
      obtain ⟨t', ht'⟩ := collapseU_cons b t
      rw [ht', noUU]
      refine Bool.and_eq_true_iff.mpr ⟨?_, ?_⟩
      · simp only [Bool.not_eq_true']
        exact Bool.eq_false_iff.mpr (uuCond hab)
      · rw [← ht']
        exact noUU_collapseU (b :: t)

theorem collapseU_eq_self : ∀ {l : List Char}, noUU l = true → collapseU l = l
  | [], _ => rfl
  | [_], _ => rfl
  | a :: b :: t, h => by
    rw [collapseU, if_neg (noUU_pair h)]
    rw [collapseU_eq_self (noUU_tail h)]

theorem noUU_dropWhile (p : Char → Bool) :
    ∀ {l : List Char}, noUU l = true → noUU (l.dropWhile p) = true
  | [], _ => rfl
  | a :: t, h => by
    by_cases hp : p a = true
    · rw [List.dropWhile_cons_of_pos hp]
      exact noUU_dropWhile p (noUU_tail h)
    · rw [List.dropWhile_cons_of_neg hp]
      exact h

theorem head_dropWhile (p : Char → Bool) :
    ∀ {l : List Char} {c : Char} {t : List Char},
      List.dropWhile p l = c :: t → p c = false
  | [], c, t, h => by simp at h
  | a :: u, c, t, h => by
    by_cases hp : p a = true
    · rw [List.dropWhile_cons_of_pos hp] at h
      exact head_dropWhile p h
    · rw [List.dropWhile_cons_of_neg hp] at h
      injection h with h1 _
      subst h1
      exact Bool.eq_false_iff.mpr hp

theorem map_id_of {f : Char → Char} :
    ∀ {l : List Char}, (∀ a ∈ l, f a = a) → l.map f = l
  | [], _ => rfl
  | c :: t, h => by
    rw [List.map_cons, h c (List.mem_cons_self c t),
      map_id_of (fun a ha => h a (List.mem_cons_of_mem c ha))]

theorem allowed_of_mem_secure {c : Char} {l : List Char}
    (h : c ∈ secureFilenameL l) : allowedChar c = true := by
  have h1 : c ∈ collapseU ((l.map (fun c => if c = ' ' then '_' else c)).filter allowedChar) :=
    (List.dropWhile_sublist _).mem h
  exact (List.mem_filter.mp (mem_collapseU h1)).2

theorem noUU_secure (l : List Char) : noUU (secureFilenameL l) = true :=
  noUU_dropWhile _ (noUU_collapseU _)

theorem head_secure {l : List Char} {c : Char} {t : List Char}
    (h : secureFilenameL l = c :: t) : (c = '.' || c = '-') = false :=
  head_dropWhile (fun c => c = '.' || c = '-') h

theorem secure_fixpoint {m : List Char}
    (hall : ∀ c ∈ m, allowedChar c = true) (hu : noUU m = true)
    (hh : ∀ c t, m = c :: t → (c = '.' || c = '-') = false) :
    secureFilenameL m = m := by
  have hmap : m.map (fun c => if c = ' ' then '_' else c) = m := by
    refine map_id_of (fun a ha => ?_)
    have hne : a ≠ ' ' := by
      intro heq
      rw [heq] at ha
      exact absurd (hall ' ' ha) (by decide)
    simp [hne]
  rw [secureFilenameL, hmap, List.filter_eq_self.mpr hall, collapseU_eq_self hu]
  match m, hh with
  | [], _ => rfl
  | c :: t, hh =>
    refine List.dropWhile_cons_of_neg ?_
    intro hq
    replace hq : (c = '.' || c = '-') = true := hq
    rw [hh c t rfl] at hq
    exact Bool.false_ne_true hq

theorem secure_idem (l : List Char) :
    secureFilenameL (secureFilenameL l) = secureFilenameL l :=
  secure_fixpoint (fun _ hc => allowed_of_mem_secure hc) (noUU_secure l)
    (fun _ _ h => head_secure h)

/-! ## Lemmas about POSIX path parsing and printing -/

theorem splitOnSlash_ne_nil : ∀ l : List Char, splitOnSlash l ≠ []
  | [] => by simp [splitOnSlash]
  | c :: cs => by
    rw [splitOnSlash]
    cases hs : splitOnSlash cs with
    | nil => simp
    | cons h t => by_cases hc : c = '/' <;> simp [hc]

theorem splitOnSlash_slash (cs : List Char) :
    splitOnSlash ('/' :: cs) = [] :: splitOnSlash cs := by
  rw [splitOnSlash]
  cases hs : splitOnSlash cs with
  | nil => exact absurd hs (splitOnSlash_ne_nil cs)
  | cons h t => simp [← hs]

theorem splitOnSlash_cons_ne {c : Char} (hc : c ≠ '/') (cs : List Char) :
    splitOnSlash (c :: cs) =
      (c :: (splitOnSlash cs).headI) :: (splitOnSlash cs).tail := by
  rw [splitOnSlash]
  cases hs : splitOnSlash cs with
  | nil => exact absurd hs (splitOnSlash_ne_nil cs)
  | cons h t => simp [hc]

theorem splitOnSlash_no_slash : ∀ {p : List Char}, '/' ∉ p → splitOnSlash p = [p]
  | [], _ => rfl
  | c :: cs, h => by
    have hc : c ≠ '/' := fun e => h (by rw [e]; exact List.mem_cons_self '/' cs)
    have ih := splitOnSlash_no_slash (fun hm => h (List.mem_cons_of_mem c hm))
    rw [splitOnSlash_cons_ne hc, ih]
    rfl

theorem splitOnSlash_append : ∀ {p : List Char} (l : List Char), '/' ∉ p →
    splitOnSlash (p ++ '/' :: l) = p :: splitOnSlash l
  | [], l, _ => splitOnSlash_slash l
  | c :: p, l, h => by
    have hc : c ≠ '/' := fun e => h (by rw [e]; exact List.mem_cons_self '/' p)
    have ih := splitOnSlash_append (p := p) l (fun hm => h (List.mem_cons_of_mem c hm))
    rw [List.cons_append, splitOnSlash_cons_ne hc, ih]
    rfl

theorem splitOnSlash_joinSlash : ∀ {ps : List (List Char)}, ps ≠ [] →
    (∀ p ∈ ps, '/' ∉ p) → splitOnSlash (joinSlash ps) = ps
  | [], h, _ => absurd rfl h
  | [p], _, hall => by
    rw [joinSlash]
    exact splitOnSlash_no_slash (hall p (List.mem_singleton.mpr rfl))
  | p :: q :: rest, _, hall => by
    rw [joinSlash, splitOnSlash_append _ (hall p (List.mem_cons_self p _))]
    rw [splitOnSlash_joinSlash (by simp) (fun r hr => hall r (List.mem_cons_of_mem p hr))]

theorem no_slash_of_mem_splitOnSlash :
    ∀ {l : List Char} {p : List Char}, p ∈ splitOnSlash l → '/' ∉ p
  | [], p, h => by
    rw [splitOnSlash, List.mem_singleton] at h
    simp [h]
  | c :: cs, p, h => by
    by_cases hc : c = '/'
    · subst hc
      rw [splitOnSlash_slash] at h
      rcases List.mem_cons.mp h with rfl | h2
      · simp
      · exact no_slash_of_mem_splitOnSlash h2
    · rw [splitOnSlash_cons_ne hc] at h
      cases hs : splitOnSlash cs with
      | nil => exact absurd hs (splitOnSlash_ne_nil cs)
      | cons hd tl =>
        rw [hs] at h
        rcases List.mem_cons.mp h with rfl | h2
        · intro hmem
          rcases List.mem_cons.mp hmem with he | hm
          · exact hc he.symm
          · refine no_slash_of_mem_splitOnSlash (l := cs) ?_ hm
            rw [hs]
            simp
        · refine no_slash_of_mem_splitOnSlash (l := cs) ?_
          rw [hs]
          exact List.mem_cons_of_mem hd h2

theorem joinSlash_head (c : Char) (p : List Char) :
    ∀ rest : List (List Char), ∃ t, joinSlash ((c :: p) :: rest) = c :: t
  | [] => ⟨p, rfl⟩
  | q :: r => ⟨p ++ '/' :: joinSlash (q :: r), rfl⟩

theorem pathRootL_cases : ∀ l : List Char,
    pathRootL l = [] ∨ pathRootL l = ['/'] ∨ pathRootL l = ['/', '/']
  | [] => Or.inl rfl
  | [a] => by
    by_cases ha : a = '/' <;> simp [pathRootL, ha]
  | [a, b] => by
    by_cases ha : a = '/' <;> by_cases hb : b = '/' <;> simp [pathRootL, ha, hb]
  | a :: b :: c :: v => by
    by_cases ha : a = '/' <;> by_cases hb : b = '/' <;> by_cases hc : c = '/' <;>
      simp [pathRootL, ha, hb, hc]

theorem pathRootL_append_join {root : List Char} {ps : List (List Char)}
    (hr : root = [] ∨ root = ['/'] ∨ root = ['/', '/'])
    (hps : ps ≠ []) (hne : ∀ p ∈ ps, p ≠ []) (hns : ∀ p ∈ ps, '/' ∉ p) :
    pathRootL (root ++ joinSlash ps) = root := by
  obtain ⟨p, rest, rfl⟩ : ∃ p rest, ps = p :: rest := by
    cases ps with
    | nil => exact absurd rfl hps
    | cons p rest => exact ⟨p, rest, rfl⟩
  obtain ⟨c, p', rfl⟩ : ∃ c p', p = c :: p' := by
    cases p with
    | nil => exact absurd rfl (hne [] (List.mem_cons_self _ _))
    | cons c p' => exact ⟨c, p', rfl⟩
  have hc : c ≠ '/' := fun e =>
    hns _ (List.mem_cons_self _ _) (by rw [e]; exact List.mem_cons_self '/' p')
  obtain ⟨t, ht⟩ := joinSlash_head c p' rest
  rcases hr with rfl | rfl | rfl
  · rw [List.nil_append, ht]
    simp [pathRootL, hc]
  · rw [List.singleton_append, ht]
    simp [pathRootL, hc]
  · rw [List.cons_append, List.singleton_append, ht]
    simp [pathRootL, hc]

theorem pathPartsL_append_join {root : List Char} {ps : List (List Char)}
    (hr : root = [] ∨ root = ['/'] ∨ root = ['/', '/'])
    (hps : ps ≠ []) (hne : ∀ p ∈ ps, p ≠ []) (hns : ∀ p ∈ ps, '/' ∉ p)
    (hdot : ∀ p ∈ ps, p ≠ ['.']) :
    pathPartsL (root ++ joinSlash ps) = ps := by
  have hsplit : splitOnSlash (joinSlash ps) = ps := splitOnSlash_joinSlash hps hns
  have hfilter : ps.filter (fun p => p ≠ [] && p ≠ ['.']) = ps := by
    refine List.filter_eq_self.mpr (fun p hp => ?_)
    simp [hne p hp, hdot p hp]
  rcases hr with rfl | rfl | rfl
  · rw [pathPartsL, List.nil_append, hsplit, hfilter]
  · rw [pathPartsL, List.singleton_append, splitOnSlash_slash, hsplit]
    rw [List.filter_cons_of_neg (by simp)]
    exact hfilter
  · rw [pathPartsL, List.cons_append, List.singleton_append,
      splitOnSlash_slash, splitOnSlash_slash, hsplit]
    rw [List.filter_cons_of_neg (by simp), List.filter_cons_of_neg (by simp)]
    exact hfilter

/-! ## Structure of a successful `get_name` -/

theorem S3Storage.get_name_some {x y : String} (h : S3Storage.get_name x = some y) :
    secureFilenameL (pathNameL x.data) ≠ [] ∧
      secureFilenameL (pathNameL x.data) ≠ ['.'] ∧
      '/' ∉ secureFilenameL (pathNameL x.data) ∧
      y.data = pathRootL x.data ++
        joinSlash ((pathPartsL x.data).dropLast ++ [secureFilenameL (pathNameL x.data)]) := by
  rw [S3Storage.get_name] at h
  simp only [] at h
  split_ifs at h with h1 h2
  have h2' := h2
  simp only [Bool.or_eq_true, decide_eq_true_eq, not_or] at h2'
  obtain ⟨⟨hfn_ne, hcont⟩, hdotne⟩ := h2'
  have hmem : '/' ∉ secureFilenameL (pathNameL x.data) := by
    intro hm
    have he := List.elem_iff.mpr hm
    rw [List.contains, he] at hcont
    simp at hcont
  refine ⟨hfn_ne, hdotne, hmem, ?_⟩
  have := Option.some.inj h
  rw [← this]
  rw [pathStrL]
  rw [if_neg (by simp)]

theorem contains_false_of_not_mem {l : List Char} {c : Char} (h : c ∉ l) :
    l.contains c = false := by
  cases hb : l.contains c with
  | false => rfl
  | true =>
    rw [List.contains] at hb
    exact absurd (List.elem_iff.mp hb) h

theorem pathPartsL_props {l : List Char} {p : List Char} (hp : p ∈ pathPartsL l) :
    p ≠ [] ∧ p ≠ ['.'] ∧ '/' ∉ p := by
  rw [pathPartsL] at hp
  have h1 := List.mem_filter.mp hp
  have h2 := h1.2
  simp only [Bool.and_eq_true, decide_eq_true_eq] at h2
  exact ⟨h2.1, h2.2, no_slash_of_mem_splitOnSlash h1.1⟩

theorem S3Storage.get_name_reparse {x y : String} (h : S3Storage.get_name x = some y) :
    pathRootL y.data = pathRootL x.data ∧
      pathPartsL y.data
        = (pathPartsL x.data).dropLast ++ [secureFilenameL (pathNameL x.data)] ∧
      pathNameL y.data = secureFilenameL (pathNameL x.data) := by
  obtain ⟨hne, hdot, hsl, hy⟩ := S3Storage.get_name_some h
  have hprops : ∀ p ∈ (pathPartsL x.data).dropLast ++ [secureFilenameL (pathNameL x.data)],
      p ≠ [] ∧ p ≠ ['.'] ∧ '/' ∉ p := by
    intro p hp
    rcases List.mem_append.mp hp with hp | hp
    · exact pathPartsL_props ((List.dropLast_sublist _).mem hp)
    · rw [List.mem_singleton] at hp
      subst hp
      exact ⟨hne, hdot, hsl⟩
  have hps_ne : (pathPartsL x.data).dropLast ++ [secureFilenameL (pathNameL x.data)] ≠ [] := by
    simp
  have hroot := pathRootL_cases x.data
  have hr2 : pathRootL y.data = pathRootL x.data := by
    rw [hy]
    exact pathRootL_append_join hroot hps_ne (fun p hp => (hprops p hp).1)
      (fun p hp => (hprops p hp).2.2)
  have hp2 : pathPartsL y.data
      = (pathPartsL x.data).dropLast ++ [secureFilenameL (pathNameL x.data)] := by
    rw [hy]
    exact pathPartsL_append_join hroot hps_ne (fun p hp => (hprops p hp).1)
      (fun p hp => (hprops p hp).2.2) (fun p hp => (hprops p hp).2.1)
  have hname2 : pathNameL y.data = secureFilenameL (pathNameL x.data) := by
    rw [pathNameL, hp2, List.getLast?_concat]
    rfl
  exact ⟨hr2, hp2, hname2⟩

theorem S3Storage.get_name_idem {x y : String} (h : S3Storage.get_name x = some y) :
    S3Storage.get_name y = some y := by
  obtain ⟨hne, hdot, hsl, hy⟩ := S3Storage.get_name_some h
  obtain ⟨hr2, hp2, hname2⟩ := S3Storage.get_name_reparse h
  have hsec : secureFilenameL (secureFilenameL (pathNameL x.data))
      = secureFilenameL (pathNameL x.data) := secure_idem _
  rw [S3Storage.get_name]
  simp only []
  rw [hname2, hsec]
  rw [if_neg hne]
  rw [if_neg (by simp [hne, hdot, hsl, contains_false_of_not_mem hsl])]
  rw [hr2, hp2, List.dropLast_concat]
  rw [pathStrL, if_neg (by simp)]
  rw [← hy]

/-! ## Candidates are always normalizable -/

theorem digitChar_isDigit {d : Nat} (h : d < 10) : (digitChar d).isDigit = true := by
  interval_cases d <;> decide

theorem natReprAux_digits :
    ∀ (fuel n : Nat) {c : Char}, c ∈ natReprAux fuel n → c.isDigit = true
  | 0, n, c, h => absurd h (List.not_mem_nil c)
  | fuel + 1, n, c, h => by
    rw [natReprAux] at h
    by_cases h10 : n < 10
    · rw [if_pos h10, List.mem_singleton] at h
      subst h
      exact digitChar_isDigit h10
    · rw [if_neg h10] at h
      rcases List.mem_append.mp h with h | h
      · exact natReprAux_digits fuel (n / 10) h
      · rw [List.mem_singleton] at h
        subst h
        exact digitChar_isDigit (Nat.mod_lt n (by omega))

theorem natRepr_digits {n : Nat} {c : Char} (h : c ∈ natRepr n) : c.isDigit = true :=
  natReprAux_digits (n + 1) n h

theorem natRepr_ne_nil (n : Nat) : natRepr n ≠ [] := by
  rw [natRepr, natReprAux]
  by_cases h10 : n < 10
  · rw [if_pos h10]
    simp
  · rw [if_neg h10]
    simp

theorem digit_allowed {c : Char} (h : c.isDigit = true) : allowedChar c = true := by
  rw [allowedChar, Char.isAlphanum, Char.isAlpha]
  simp [h]

theorem digit_ne {c : Char} (h : c.isDigit = true) :
    c ≠ '/' ∧ c ≠ '_' ∧ c ≠ '.' ∧ c ≠ '-' ∧ c ≠ ' ' := by
  refine ⟨?_, ?_, ?_, ?_, ?_⟩ <;> (intro he; rw [he] at h; exact absurd h (by decide))

theorem pathStemL_subset (l : List Char) : ∀ c ∈ pathStemL l, c ∈ pathNameL l := by
  intro c hc
  rw [pathStemL] at hc
  split at hc
  · split at hc
    · exact List.take_subset _ _ hc
    · exact hc
  · exact hc

theorem pathSuffixL_subset (l : List Char) : ∀ c ∈ pathSuffixL l, c ∈ pathNameL l := by
  intro c hc
  rw [pathSuffixL] at hc
  split at hc
  · split at hc
    · exact List.drop_subset _ _ hc
    · exact absurd hc (List.not_mem_nil c)
  · exact absurd hc (List.not_mem_nil c)

theorem mem_of_getLast?_eq {α : Type} {l : List α} {a : α} :
    l.getLast? = some a → a ∈ l := by
  induction l with
  | nil => intro h; simp at h
  | cons b t ih =>
    intro h
    cases t with
    | nil =>
      rw [List.getLast?_singleton] at h
      rw [Option.some.injEq] at h
      subst h
      exact List.mem_singleton.mpr rfl
    | cons c u =>
      rw [List.getLast?_cons_cons] at h
      exact List.mem_cons_of_mem b (ih h)

theorem pathNameL_no_slash (l : List Char) : '/' ∉ pathNameL l := by
  rw [pathNameL]
  cases hl : (pathPartsL l).getLast? with
  | none => simp
  | some p =>
    simp only [Option.getD_some]
    exact (pathPartsL_props (mem_of_getLast?_eq hl)).2.2

theorem cand_data (name : String) (n : Nat) : (S3Storage.cand name n).data
    = pathStemL name.data ++ ('_' :: natRepr n) ++ pathSuffixL name.data := rfl

theorem mem_cand {c : Char} {name : String} {n : Nat}
    (h : c ∈ (S3Storage.cand name n).data) :
    c ∈ pathStemL name.data ∨ c = '_' ∨ c ∈ natRepr n ∨ c ∈ pathSuffixL name.data := by
  rw [cand_data] at h
  rcases List.mem_append.mp h with h | h
  · rcases List.mem_append.mp h with h | h
    · exact Or.inl h
    · rcases List.mem_cons.mp h with h | h
      · exact Or.inr (Or.inl h)
      · exact Or.inr (Or.inr (Or.inl h))
  · exact Or.inr (Or.inr (Or.inr h))

theorem cand_no_slash (name : String) (n : Nat) : '/' ∉ (S3Storage.cand name n).data := by
  intro h
  rcases mem_cand h with h | h | h | h
  · exact pathNameL_no_slash name.data (pathStemL_subset name.data '/' h)
  · exact absurd h.symm (by decide)
  · exact absurd rfl (digit_ne (natRepr_digits h)).1
  · exact pathNameL_no_slash name.data (pathSuffixL_subset name.data '/' h)

theorem mem_collapseU_of_ne {c : Char} (hc : c ≠ '_') :
    ∀ {l : List Char}, c ∈ l → c ∈ collapseU l
  | [], h => h
  | [_], h => h
  | a :: b :: t, h => by
    by_cases hab : a = '_' ∧ b = '_'
    · obtain ⟨ha, hb⟩ := hab
      subst ha; subst hb
      rw [collapseU, if_pos (by decide)]
      rcases List.mem_cons.mp h with rfl | h2
      · exact absurd rfl hc
      · exact mem_collapseU_of_ne hc h2
    · rw [collapseU, if_neg (uuCond hab)]
      rcases List.mem_cons.mp h with rfl | h2
      · exact List.mem_cons_self _ _
      · exact List.mem_cons_of_mem a (mem_collapseU_of_ne hc h2)

theorem mem_dropWhile_of_not {p : Char → Bool} {c : Char} (hc : p c = false) :
    ∀ {l : List Char}, c ∈ l → c ∈ l.dropWhile p
  | [], h => h
  | a :: t, h => by
    by_cases hp : p a = true
    · rw [List.dropWhile_cons_of_pos hp]
      rcases List.mem_cons.mp h with rfl | h2
      · rw [hp] at hc
        exact absurd hc (by decide)
      · exact mem_dropWhile_of_not hc h2
    · rw [List.dropWhile_cons_of_neg hp]
      exact h

theorem pathPartsL_of_no_slash {L : List Char} (h : '/' ∉ L) (hne : L ≠ [])
    (hdot : L ≠ ['.']) : pathPartsL L = [L] := by
  rw [pathPartsL, splitOnSlash_no_slash h]
  rw [List.filter_cons_of_pos (by simp [hne, hdot])]
  rfl

theorem pathNameL_of_no_slash {L : List Char} (h : '/' ∉ L) (hne : L ≠ [])
    (hdot : L ≠ ['.']) : pathNameL L = L := by
  rw [pathNameL, pathPartsL_of_no_slash h hne hdot]
  rfl

theorem exists_digit_natRepr (n : Nat) :
    ∃ d ds, natRepr n = d :: ds ∧ d.isDigit = true := by
  cases hr : natRepr n with
  | nil => exact absurd hr (natRepr_ne_nil n)
  | cons d ds =>
    refine ⟨d, ds, rfl, natRepr_digits (n := n) ?_⟩
    rw [hr]
    exact List.mem_cons_self d ds

theorem mem_underscore_cand (name : String) (n : Nat) :
    '_' ∈ (S3Storage.cand name n).data := by
  rw [cand_data]
  exact List.mem_append.mpr (Or.inl (List.mem_append.mpr (Or.inr (List.mem_cons_self _ _))))

theorem mem_digit_cand {name : String} {n : Nat} {d : Char} {ds : List Char}
    (hr : natRepr n = d :: ds) : d ∈ (S3Storage.cand name n).data := by
  rw [cand_data]
  refine List.mem_append.mpr (Or.inl (List.mem_append.mpr (Or.inr ?_)))
  rw [hr]
  exact List.mem_cons_of_mem '_' (List.mem_cons_self d ds)

theorem S3Storage.get_name_cand (name : String) (n : Nat) :
    ∃ k, S3Storage.get_name (S3Storage.cand name n) = some k := by
  obtain ⟨d, ds, hds, hd⟩ := exists_digit_natRepr n
  have hmemu : '_' ∈ (S3Storage.cand name n).data := mem_underscore_cand name n
  have hmemd : d ∈ (S3Storage.cand name n).data := mem_digit_cand hds
  have hnos : '/' ∉ (S3Storage.cand name n).data := cand_no_slash name n
  have hLne : (S3Storage.cand name n).data ≠ [] := by
    intro he
    rw [he] at hmemu
    exact List.not_mem_nil '_' hmemu
  have hLdot : (S3Storage.cand name n).data ≠ ['.'] := by
    intro he
    rw [he, List.mem_singleton] at hmemu
    exact absurd hmemu (by decide)
  have hname : pathNameL (S3Storage.cand name n).data = (S3Storage.cand name n).data :=
    pathNameL_of_no_slash hnos hLne hLdot
  have hfd : d ∈ secureFilenameL (S3Storage.cand name n).data := by
    rw [secureFilenameL]
    refine mem_dropWhile_of_not ?_ ?_
    · have h1 := (digit_ne hd).2.2.1
      have h2 := (digit_ne hd).2.2.2.1
      simp [h1, h2]
    · refine mem_collapseU_of_ne (digit_ne hd).2.1 ?_
      refine List.mem_filter.mpr ⟨?_, digit_allowed hd⟩
      refine List.mem_map.mpr ⟨d, hmemd, ?_⟩
      simp [(digit_ne hd).2.2.2.2]
  have hfne : secureFilenameL (S3Storage.cand name n).data ≠ [] := by
    intro he
    rw [he] at hfd
    exact List.not_mem_nil d hfd
  have hfns : '/' ∉ secureFilenameL (S3Storage.cand name n).data := fun hm =>
    absurd (allowed_of_mem_secure hm) (by decide)
  have hfdot : secureFilenameL (S3Storage.cand name n).data ≠ ['.'] := by
    intro he
    have := head_secure (c := '.') (t := []) he
    exact absurd this (by decide)
  rw [S3Storage.get_name]
  simp only []
  rw [hname]
  rw [if_neg hLne]
  rw [if_neg (by simp [hfne, hfdot, hfns, contains_false_of_not_mem hfns])]
  exact ⟨_, rfl⟩

/-! ## Characterization of the collision-resolution loop -/

theorem S3Storage.genAux_ret (ex : String → Except Unit Bool) (name : String) :
    ∀ (fuel counter : Nat) (filename key r : String),
      (S3Storage.genAux ex name fuel counter filename key).1 = S3Storage.GenOut.ret r →
      (ex key = Except.ok false ∧ r = filename) ∨
      (ex key = Except.ok true ∧ ∃ n, counter < n ∧ r = S3Storage.cand name n ∧
        (∃ k, S3Storage.get_name (S3Storage.cand name n) = some k ∧ ex k = Except.ok false) ∧
        (∀ m, counter < m → m < n →
          ∃ k, S3Storage.get_name (S3Storage.cand name m) = some k ∧
            ex k = Except.ok true)) := by
  intro fuel
  induction fuel with
  | zero =>
    intro counter filename key r h
    rw [S3Storage.genAux] at h
    exact absurd h (by simp)
  | succ f ih =>
    intro counter filename key r h
    rw [S3Storage.genAux] at h
    rcases hek : ex key with u | b
    · rw [hek] at h
      simp at h
    · rw [hek] at h
      cases b with
      | false =>
        simp at h
        exact Or.inl ⟨rfl, h.symm⟩
      | true =>
        simp only [] at h
        rcases hgn : S3Storage.get_name (S3Storage.cand name (counter + 1)) with _ | key'
        · rw [hgn] at h
          simp at h
        · rw [hgn] at h
          simp only [] at h
          rcases ih (counter + 1) (S3Storage.cand name (counter + 1)) key' r h
            with ⟨hek', hr⟩ | ⟨hek', n, hn, hr, habs, hall⟩
          · refine Or.inr ⟨rfl, counter + 1, Nat.lt_succ_self counter, hr, ⟨key', hgn, hek'⟩, ?_⟩
            intro m hm1 hm2
            omega
          · refine Or.inr ⟨rfl, n, by omega, hr, habs, ?_⟩
            intro m hm1 hm2
            by_cases hme : m = counter + 1
            · subst hme
              exact ⟨key', hgn, hek'⟩
            · exact hall m (by omega) hm2

theorem S3Storage.generate_new_filename_ret
    {ex : String → Except Unit Bool} {fuel : Nat} {name r : String}
    (h : (S3Storage.generate_new_filename ex fuel name).1 = S3Storage.GenOut.ret r) :
    ∃ k, S3Storage.get_name name = some k ∧
      ((ex k = Except.ok false ∧ r = name) ∨
       (ex k = Except.ok true ∧ ∃ n, 1 ≤ n ∧ r = S3Storage.cand name n ∧
         (∃ kn, S3Storage.get_name (S3Storage.cand name n) = some kn ∧
           ex kn = Except.ok false) ∧
         (∀ m, 1 ≤ m → m < n →
           ∃ km, S3Storage.get_name (S3Storage.cand name m) = some km ∧
             ex km = Except.ok true))) := by
  rw [S3Storage.generate_new_filename] at h
  rcases hk : S3Storage.get_name name with _ | key
  · rw [hk] at h
    simp at h
  · rw [hk] at h
    simp only [] at h
    rcases S3Storage.genAux_ret ex name fuel 0 name key r h
      with ⟨hek, hr⟩ | ⟨hek, n, hn, hr, habs, hall⟩
    · exact ⟨key, rfl, Or.inl ⟨hek, hr⟩⟩
    · exact ⟨key, rfl, Or.inr ⟨hek, n, by omega, hr, habs,
        fun m hm1 hm2 => hall m (by omega) hm2⟩⟩

theorem S3Storage.genAux_spin (ex : String → Except Unit Bool) (name : String)
    (hall : ∀ n, 1 ≤ n → ∀ k, S3Storage.get_name (S3Storage.cand name n) = some k →
      ex k = Except.ok true) :
    ∀ (fuel counter : Nat) (filename key : String), ex key = Except.ok true →
      S3Storage.genAux ex name fuel counter filename key = (S3Storage.GenOut.spin, fuel) := by
  intro fuel
  induction fuel with
  | zero =>
    intro counter filename key hk
    rw [S3Storage.genAux]
  | succ f ih =>
    intro counter filename key hk
    rw [S3Storage.genAux, hk]
    simp only []
    obtain ⟨k', hk'⟩ := S3Storage.get_name_cand name (counter + 1)
    rw [hk']
    simp only []
    rw [ih (counter + 1) (S3Storage.cand name (counter + 1)) k'
      (hall (counter + 1) (by omega) k' hk')]

theorem S3Storage.genAux_term (b : String → Bool) (name : String) :
    ∀ (j counter : Nat) (filename key : String),
      (b key = false ∨ ∃ m, counter < m ∧ m ≤ counter + j ∧
        (∀ k, S3Storage.get_name (S3Storage.cand name m) = some k → b k = false)) →
      ∀ fuel, j + 1 ≤ fuel →
        ∃ r, (S3Storage.genAux (fun k => Except.ok (b k)) name fuel counter filename key).1
          = S3Storage.GenOut.ret r := by
  intro j
  induction j with
  | zero =>
    intro counter filename key hyp fuel hf
    obtain ⟨f, rfl⟩ : ∃ f, fuel = f + 1 := ⟨fuel - 1, by omega⟩
    rcases hyp with hb | ⟨m, h1, h2, _⟩
    · rw [S3Storage.genAux]
      simp only [hb]
      exact ⟨filename, rfl⟩
    · omega
  | succ j ih =>
    intro counter filename key hyp fuel hf
    obtain ⟨f, rfl⟩ : ∃ f, fuel = f + 1 := ⟨fuel - 1, by omega⟩
    cases hb : b key with
    | false =>
      rw [S3Storage.genAux]
      simp only [hb]
      exact ⟨filename, rfl⟩
    | true =>
      rw [S3Storage.genAux]
      simp only [hb]
      obtain ⟨k', hk'⟩ := S3Storage.get_name_cand name (counter + 1)
      rw [hk']
      simp only []
      have hyp' : b k' = false ∨ ∃ m, counter + 1 < m ∧ m ≤ counter + 1 + j ∧
          (∀ k, S3Storage.get_name (S3Storage.cand name m) = some k → b k = false) := by
        rcases hyp with hbf | ⟨m, h1, h2, h3⟩
        · rw [hb] at hbf
          exact absurd hbf (by decide)
        · by_cases hme : m = counter + 1
          · subst hme
            exact Or.inl (h3 k' hk')
          · exact Or.inr ⟨m, by omega, by omega, h3⟩
      obtain ⟨r, hr⟩ := ih (counter + 1) (S3Storage.cand name (counter + 1)) k' hyp' f
        (by omega)
      exact ⟨r, hr⟩

theorem S3Storage.gen_ret_immediate {b : String → Bool} {name k : String}
    (hk : S3Storage.get_name name = some k) (hbk : b k = false)
    {fuel : Nat} (hf : 1 ≤ fuel) :
    S3Storage.genNewFilenameB b fuel name = (S3Storage.GenOut.ret name, 1) := by
  obtain ⟨f, rfl⟩ : ∃ f, fuel = f + 1 := ⟨fuel - 1, by omega⟩
  rw [S3Storage.genNewFilenameB, S3Storage.generate_new_filename, hk]
  simp only []
  rw [S3Storage.genAux]
  simp only [hbk]

theorem S3Storage.gen_spin {b : String → Bool} {name k : String}
    (hk : S3Storage.get_name name = some k) (hbk : b k = true)
    (hall : ∀ n, 1 ≤ n → ∀ kn, S3Storage.get_name (S3Storage.cand name n) = some kn →
      b kn = true) (fuel : Nat) :
    S3Storage.genNewFilenameB b fuel name = (S3Storage.GenOut.spin, fuel) := by
  rw [S3Storage.genNewFilenameB, S3Storage.generate_new_filename, hk]
  simp only []
  exact S3Storage.genAux_spin (fun k => Except.ok (b k)) name
    (fun n hn kn hkn => by simp only []; rw [hall n hn kn hkn]) fuel 0 name k
    (by simp only []; rw [hbk])

theorem S3Storage.gen_term {b : String → Bool} {name k : String} {n : Nat}
    (hk : S3Storage.get_name name = some k) (hn : 1 ≤ n)
    (habs : ∀ kn, S3Storage.get_name (S3Storage.cand name n) = some kn → b kn = false)
    {fuel : Nat} (hf : n + 1 ≤ fuel) :
    ∃ r, (S3Storage.genNewFilenameB b fuel name).1 = S3Storage.GenOut.ret r := by
  rw [S3Storage.genNewFilenameB, S3Storage.generate_new_filename, hk]
  simp only []
  exact S3Storage.genAux_term b name n 0 name k
    (Or.inr ⟨n, by omega, by omega, habs⟩) fuel (by omega)

theorem S3Storage.check_non404 {hd : String → S3Storage.HeadOutcome} {key code : String}
    (hhd : hd key = S3Storage.HeadOutcome.clientError code) (hc : code ≠ "404") :
    S3Storage.check_object_exists hd key = Except.ok true := by
  rw [S3Storage.check_object_exists, hhd]
  simp only []
  rw [if_neg hc]

theorem S3Storage.check_exn {hd : String → S3Storage.HeadOutcome} {key : String}
    (hhd : hd key = S3Storage.HeadOutcome.exn) :
    S3Storage.check_object_exists hd key = Except.error () := by
  rw [S3Storage.check_object_exists, hhd]

theorem S3Storage.gen_propagates {hd : String → S3Storage.HeadOutcome} {name k : String}
    (hk : S3Storage.get_name name = some k)
    (hhd : hd k = S3Storage.HeadOutcome.exn) {fuel : Nat} (hf : 1 ≤ fuel) :
    (S3Storage.genNewFilenameH hd fuel name).1 = S3Storage.GenOut.exn := by
  obtain ⟨f, rfl⟩ : ∃ f, fuel = f + 1 := ⟨fuel - 1, by omega⟩
  rw [S3Storage.genNewFilenameH, S3Storage.generate_new_filename, hk]
  simp only []
  rw [S3Storage.genAux, S3Storage.check_exn hhd]

theorem S3Storage.gen_no_dir {b : String → Bool} {name k r : String} {fuel : Nat}
    (hk : S3Storage.get_name name = some k) (hbk : b k = true)
    (h : (S3Storage.genNewFilenameB b fuel name).1 = S3Storage.GenOut.ret r) :
    '/' ∉ r.data := by
  obtain ⟨k', hk', hcase⟩ := S3Storage.generate_new_filename_ret h
  rw [hk] at hk'
  rw [Option.some.injEq] at hk'
  subst hk'
  rcases hcase with ⟨hfalse, _⟩ | ⟨_, n, _, hr, _⟩
  · rw [Except.ok.injEq] at hfalse
    rw [hbk] at hfalse
    exact absurd hfalse.symm (by decide)
  · rw [hr]
    exact cand_no_slash name n

/-! ## Claims -/

/-- C1: with an existence check true exactly on `{"a.png", "a_1.png"}`,
`generate_new_filename("a.png")` returns `"a_2.png"`; and in general a
returned name is either the input (its key absent) or the first candidate
`"{stem}_{counter}{suffix}"` (counter starting at 1, increasing by 1)
whose normalized key the existence check reports absent. -/
theorem claim_C1 :
    (S3Storage.genNewFilenameB (fun k => k == "a.png" || k == "a_1.png") 10 "a.png").1
      = S3Storage.GenOut.ret "a_2.png" ∧
    ∀ (b : String → Bool) (fuel : Nat) (name r : String),
      (S3Storage.genNewFilenameB b fuel name).1 = S3Storage.GenOut.ret r →
      ∃ k, S3Storage.get_name name = some k ∧
        ((b k = false ∧ r = name) ∨
         (b k = true ∧ ∃ n, 1 ≤ n ∧ r = S3Storage.cand name n ∧
           (∃ kn, S3Storage.get_name (S3Storage.cand name n) = some kn ∧ b kn = false) ∧
           (∀ m, 1 ≤ m → m < n →
             ∃ km, S3Storage.get_name (S3Storage.cand name m) = some km ∧
               b km = true))) := by
  constructor
  · decide
  · intro b fuel name r h
    obtain ⟨k, hk, hcase⟩ := S3Storage.generate_new_filename_ret h
    refine ⟨k, hk, ?_⟩
    rcases hcase with ⟨hek, hr⟩ | ⟨hek, n, hn, hr, ⟨kn, hkn, hekn⟩, hall⟩
    · rw [Except.ok.injEq] at hek
      exact Or.inl ⟨hek, hr⟩
    · rw [Except.ok.injEq] at hek
      refine Or.inr ⟨hek, n, hn, hr, ⟨kn, hkn, ?_⟩, ?_⟩
      · rw [Except.ok.injEq] at hekn
        exact hekn
      · intro m hm1 hm2
        obtain ⟨km, hkm, hekm⟩ := hall m hm1 hm2
        rw [Except.ok.injEq] at hekm
        exact ⟨km, hkm, hekm⟩

/-- C1 witness: the characterization applied at the concrete run of the
spec's example. -/
theorem claim_C1_witness :
    ∃ k, S3Storage.get_name "a.png" = some k ∧
      (((fun k => k == "a.png" || k == "a_1.png") k = false ∧ "a_2.png" = "a.png") ∨
       ((fun k => k == "a.png" || k == "a_1.png") k = true ∧
         ∃ n, 1 ≤ n ∧ "a_2.png" = S3Storage.cand "a.png" n ∧
           (∃ kn, S3Storage.get_name (S3Storage.cand "a.png" n) = some kn ∧
             (fun k => k == "a.png" || k == "a_1.png") kn = false) ∧
           (∀ m, 1 ≤ m → m < n →
             ∃ km, S3Storage.get_name (S3Storage.cand "a.png" m) = some km ∧
               (fun k => k == "a.png" || k == "a_1.png") km = true))) :=
  claim_C1.2 (fun k => k == "a.png" || k == "a_1.png") 10 "a.png" "a_2.png" claim_C1.1

/-- C2 counterexample: `get_name` preserves the directory prefix verbatim,
so the key of `"../a.png"` still contains the path-traversal segment
`".."` — the claim that a produced key never contains traversal segments
is false. -/
theorem claim_C2_counterexample :
    S3Storage.get_name "../a.png" = some "../a.png" ∧
      ['.', '.'] ∈ pathPartsL ("../a.png".data) := by
  constructor
  · decide
  · decide

/-- C2 amended: `get_name` sanitizes only the leaf filename — the root and
the directory-prefix segments of the input are preserved verbatim, and the
leaf of the resulting key contains only allowed characters — but the
directory prefix itself is not sanitized, so the key may retain traversal
segments or unsafe characters appearing before the leaf. -/
theorem claim_C2_amended : ∀ x y : String, S3Storage.get_name x = some y →
    pathRootL y.data = pathRootL x.data ∧
    (pathPartsL y.data).dropLast = (pathPartsL x.data).dropLast ∧
    (∀ c ∈ pathNameL y.data, allowedChar c = true) := by
  intro x y h
  obtain ⟨hr, hp, hn⟩ := S3Storage.get_name_reparse h
  refine ⟨hr, ?_, ?_⟩
  · rw [hp, List.dropLast_concat]
  · rw [hn]
    exact fun c hc => allowed_of_mem_secure hc

/-- C2 witness: the amended statement at a concrete unsafe input. -/
theorem claim_C2_witness :
    pathRootL ("uploads/my_file.png").data = pathRootL ("uploads/my file.png").data ∧
    (pathPartsL ("uploads/my_file.png").data).dropLast
      = (pathPartsL ("uploads/my file.png").data).dropLast ∧
    (∀ c ∈ pathNameL ("uploads/my_file.png").data, allowedChar c = true) :=
  claim_C2_amended "uploads/my file.png" "uploads/my_file.png" (by decide)

/-- C3 counterexample: an auth failure surfaces as a `ClientError` with
code `"403"`; `_check_object_exists` swallows it and reports the object as
existing, and `generate_new_filename` keeps iterating instead of
propagating the error. -/
theorem claim_C3_counterexample :
    S3Storage.check_object_exists
        (fun _ => S3Storage.HeadOutcome.clientError "403") "a.png" = Except.ok true ∧
    (S3Storage.genNewFilenameH
        (fun _ => S3Storage.HeadOutcome.clientError "403") 5 "a.png").1
      ≠ S3Storage.GenOut.exn := by
  constructor
  · rfl
  · decide

/-- C3 amended: only an exception that is not a `botocore ClientError`
(e.g. a connection error) propagates uncaught out of
`generate_new_filename`; a `ClientError` with a non-`"404"` code is caught
and classified as "object exists" instead of being surfaced. -/
theorem claim_C3_amended :
    (∀ (hd : String → S3Storage.HeadOutcome) (key code : String),
      hd key = S3Storage.HeadOutcome.clientError code → code ≠ "404" →
      S3Storage.check_object_exists hd key = Except.ok true) ∧
    (∀ (hd : String → S3Storage.HeadOutcome) (name k : String) (fuel : Nat),
      S3Storage.get_name name = some k → hd k = S3Storage.HeadOutcome.exn → 1 ≤ fuel →
      (S3Storage.genNewFilenameH hd fuel name).1 = S3Storage.GenOut.exn) := by
  constructor
  · intro hd key code hhd hc
    exact S3Storage.check_non404 hhd hc
  · intro hd name k fuel hk hhd hf
    exact S3Storage.gen_propagates hk hhd hf

/-- C3 witness: both amended parts at concrete inputs — a 403 `ClientError`
is classified as existing, and a non-`ClientError` exception propagates. -/
theorem claim_C3_witness :
    S3Storage.check_object_exists
        (fun _ => S3Storage.HeadOutcome.clientError "403") "a.png" = Except.ok true ∧
    (S3Storage.genNewFilenameH (fun _ => S3Storage.HeadOutcome.exn) 3 "a.png").1
      = S3Storage.GenOut.exn :=
  ⟨claim_C3_amended.1 (fun _ => S3Storage.HeadOutcome.clientError "403") "a.png" "403"
      rfl (by decide),
   claim_C3_amended.2 (fun _ => S3Storage.HeadOutcome.exn) "a.png" "a.png" 3
      (by decide) rfl (by decide)⟩

/-- C4 counterexample: construction succeeds with empty credentials and an
empty bucket name (only `boto3` presence and the endpoint prefix are
checked), so the claim that missing credentials or bucket identity make
the constructor fail is false. -/
theorem claim_C4_counterexample :
    S3Storage.init ⟨true, "", "", "", "s3.local", true⟩
      = some ⟨"https", "https://s3.local"⟩ := by
  decide

/-- C4 amended: construction fails — leaving no instance — exactly when
`boto3` is not installed or the configured endpoint begins with `"http"`;
credentials and bucket identity are not validated at construction. -/
theorem claim_C4_amended : ∀ c : S3Storage.Config,
    (S3Storage.init c).isSome = true ↔
      (c.boto3Installed = true ∧
        ¬ List.isPrefixOf "http".data c.AWS_S3_ENDPOINT_URL.data = true) := by
  intro c
  rw [S3Storage.init]
  split_ifs with h1 h2 h3
  · simp [h1]
  · simp only [Option.isSome_none]
    constructor
    · intro hf
      exact absurd hf (by decide)
    · intro hx
      exact absurd h2 hx.2
  · have hb : c.boto3Installed = true := by
      cases hb : c.boto3Installed
      · exact absurd hb h1
      · rfl
    constructor
    · intro _
      exact ⟨hb, h2⟩
    · intro _
      rfl
  · have hb : c.boto3Installed = true := by
      cases hb : c.boto3Installed
      · exact absurd hb h1
      · rfl
    constructor
    · intro _
      exact ⟨hb, h2⟩
    · intro _
      rfl

/-- C5: when the existence check reports the normalized key of the input
absent, `generate_new_filename` returns the input unchanged after exactly
one existence check. -/
theorem claim_C5 : ∀ (b : String → Bool) (x k : String) (fuel : Nat),
    S3Storage.get_name x = some k → b k = false → 1 ≤ fuel →
    S3Storage.genNewFilenameB b fuel x = (S3Storage.GenOut.ret x, 1) :=
  fun _ _ _ _ hk hb hf => S3Storage.gen_ret_immediate hk hb hf

/-- C5 witness: the always-false existence check on a concrete name. -/
theorem claim_C5_witness :
    S3Storage.genNewFilenameB (fun _ => false) 5 "x.png"
      = (S3Storage.GenOut.ret "x.png", 1) :=
  claim_C5 (fun _ => false) "x.png" "x.png" 5 (by decide) rfl (by decide)

/-- C6: normalization is idempotent — applying `get_name` to the result of
a successful `get_name` returns it unchanged (and a failing input stays
failing), i.e. `get_name∘get_name = get_name` under `Option.bind`. -/
theorem claim_C6 : ∀ x : String,
    (S3Storage.get_name x).bind S3Storage.get_name = S3Storage.get_name x := by
  intro x
  cases h : S3Storage.get_name x with
  | none => rfl
  | some y =>
    show S3Storage.get_name y = some y
    exact S3Storage.get_name_idem h

/-- C7: `write` uploads the file's content under exactly the key
`get_name(name)`, with the content type inferred from that key by the
`mimetypes` capability (falling back to `"application/octet-stream"`),
overwriting whatever object was at that key — for any prior bucket state,
without any existence check — and returns that key. -/
theorem claim_C7 : ∀ (guess : String → Option String) (acl : String)
    (σ : String → Option S3Storage.ObjRec) (file : S3Storage.BinFile)
    (name key : String), S3Storage.get_name name = some key →
    ∃ σ', S3Storage.write guess acl σ file name = some (σ', key) ∧
      σ' key = some ⟨file.data, (guess key).getD "application/octet-stream", acl⟩ ∧
      (∀ k, k ≠ key → σ' k = σ k) := by
  intro guess acl σ file name key hk
  refine ⟨fun k => if k = key
      then some ⟨file.data, (guess key).getD "application/octet-stream", acl⟩
      else σ k, ?_, ?_, ?_⟩
  · rw [S3Storage.write, hk]
  · simp
  · intro k hne
    simp [hne]

/-- C7 witness: a concrete write into an occupied bucket slot. -/
theorem claim_C7_witness :
    ∃ σ', S3Storage.write (fun _ => none) "" (fun _ => some ⟨[9], "t", "a"⟩)
        ⟨[1, 2], 7⟩ "a.png" = some (σ', "a.png") ∧
      σ' "a.png" = some ⟨[1, 2], (none : Option String).getD "application/octet-stream", ""⟩ ∧
      (∀ k, k ≠ "a.png" → σ' k = (fun _ => some (⟨[9], "t", "a"⟩ : S3Storage.ObjRec)) k) :=
  claim_C7 (fun _ => none) "" (fun _ => some ⟨[9], "t", "a"⟩) ⟨[1, 2], 7⟩
    "a.png" "a.png" (by decide)

/-- C8: the loop terminates (returns) whenever the existence check is
false on the input's normalized key, or false on the normalized key of
some candidate `"{stem}_{n}{suffix}"` with `n ≥ 1`; but when the check is
true on the input's key and on every candidate's key, the loop runs
without bound — after any number `fuel` of iterations it is still
spinning, having performed exactly `fuel` existence checks, with no fatal
error raised. -/
theorem claim_C8 :
    (∀ (b : String → Bool) (name k : String) (fuel : Nat),
      S3Storage.get_name name = some k → b k = false → 1 ≤ fuel →
      ∃ r, (S3Storage.genNewFilenameB b fuel name).1 = S3Storage.GenOut.ret r) ∧
    (∀ (b : String → Bool) (name k : String) (n fuel : Nat),
      S3Storage.get_name name = some k → 1 ≤ n →
      (∀ kn, S3Storage.get_name (S3Storage.cand name n) = some kn → b kn = false) →
      n + 1 ≤ fuel →
      ∃ r, (S3Storage.genNewFilenameB b fuel name).1 = S3Storage.GenOut.ret r) ∧
    (∀ (b : String → Bool) (name k : String),
      S3Storage.get_name name = some k → b k = true →
      (∀ n, 1 ≤ n → ∀ kn, S3Storage.get_name (S3Storage.cand name n) = some kn →
        b kn = true) →
      ∀ fuel, S3Storage.genNewFilenameB b fuel name = (S3Storage.GenOut.spin, fuel)) := by
  refine ⟨?_, ?_, ?_⟩
  · intro b name k fuel hk hb hf
    exact ⟨name, by rw [S3Storage.gen_ret_immediate hk hb hf]⟩
  · intro b name k n fuel hk hn habs hf
    exact S3Storage.gen_term hk hn habs hf
  · intro b name k hk hb hall fuel
    exact S3Storage.gen_spin hk hb hall fuel

/-- C8 witness: the three parts at concrete runs — immediate return,
return at the first free candidate, and unbounded spinning under an
always-true existence check. -/
theorem claim_C8_witness :
    (∃ r, (S3Storage.genNewFilenameB (fun _ => false) 1 "a.png").1
      = S3Storage.GenOut.ret r) ∧
    (∃ r, (S3Storage.genNewFilenameB (fun k => k == "a.png") 2 "a.png").1
      = S3Storage.GenOut.ret r) ∧
    S3Storage.genNewFilenameB (fun _ => true) 5 "a.png" = (S3Storage.GenOut.spin, 5) :=
  ⟨claim_C8.1 (fun _ => false) "a.png" "a.png" 1 (by decide) rfl (by decide),
   claim_C8.2.1 (fun k => k == "a.png") "a.png" "a.png" 1 2 (by decide) (by decide)
     (fun kn hkn => by
       have h1 : S3Storage.get_name (S3Storage.cand "a.png" 1) = some "a_1.png" := by decide
       rw [h1, Option.some.injEq] at hkn
       subst hkn
       decide) (by decide),
   claim_C8.2.2 (fun _ => true) "a.png" "a.png" (by decide) rfl
     (fun n hn kn hkn => rfl) 5⟩

/-- C9: `_check_object_exists` classifies every `ClientError` whose code
is not `"404"` (e.g. 403 or 500) as "object exists", so
`generate_new_filename` treats such a name as taken and advances to the
next candidate instead of surfacing the error. -/
theorem claim_C9 :
    (∀ (hd : String → S3Storage.HeadOutcome) (key code : String),
      hd key = S3Storage.HeadOutcome.clientError code → code ≠ "404" →
      S3Storage.check_object_exists hd key = Except.ok true) ∧
    S3Storage.genNewFilenameH
        (fun k => if k == "a.png" then S3Storage.HeadOutcome.clientError "500"
          else S3Storage.HeadOutcome.clientError "404") 5 "a.png"
      = (S3Storage.GenOut.ret "a_1.png", 2) := by
  constructor
  · intro hd key code hhd hc
    exact S3Storage.check_non404 hhd hc
  · decide

/-- C9 witness: the classification applied to a concrete 500-code error. -/
theorem claim_C9_witness :
    S3Storage.check_object_exists
        (fun _ => S3Storage.HeadOutcome.clientError "500") "k.png" = Except.ok true :=
  claim_C9.1 (fun _ => S3Storage.HeadOutcome.clientError "500") "k.png" "500"
    rfl (by decide)

/-- C10: with a directory-prefixed input whose key exists, the returned
name is built from the path stem and suffix only — the directory prefix is
dropped; in general any name returned after at least one collision is a
candidate, which contains no `/`. -/
theorem claim_C10 :
    (S3Storage.genNewFilenameB (fun k => k == "uploads/a.png") 5 "uploads/a.png").1
      = S3Storage.GenOut.ret "a_1.png" ∧
    ∀ (b : String → Bool) (name k r : String) (fuel : Nat),
      S3Storage.get_name name = some k → b k = true →
      (S3Storage.genNewFilenameB b fuel name).1 = S3Storage.GenOut.ret r →
      '/' ∉ r.data := by
  constructor
  · decide
  · intro b name k r fuel hk hb h
    exact S3Storage.gen_no_dir hk hb h

/-- C10 witness: the generality applied at the concrete run, where the
returned `"a_1.png"` indeed contains no directory separator. -/
theorem claim_C10_witness : '/' ∉ ("a_1.png" : String).data :=
  claim_C10.2 (fun k => k == "uploads/a.png") "uploads/a.png" "uploads/a.png"
    "a_1.png" 5 (by decide) (by decide) claim_C10.1
